import Mathlib

/-!
Verification development for the emoji-suggestion engine and AI request
layer of eslint-doc-generator.

The definitions below are shallow embeddings of the TypeScript sources
(src/lib/init-emojis.ts, src/lib/init-emojis-builtin.ts,
src/lib/suggest-emojis-ai.ts, src/lib/ai.ts, src/lib/init-emojis-ai.ts).
Strings are Lean `String`s, JS `Map`s are association lists that keep
insertion order, JS `Set`s are duplicate-free lists, thrown exceptions are
`Except` errors, and the external `node-emoji` library together with the
Unicode pictographic character class is abstracted as an `EmojiDict`
record of opaque functions.
-/

namespace EslintDocGen

/-- ASCII alphanumeric test, the `[a-zA-Z0-9]` character class used by the
tokenizer and `normalizeEmojiCandidate` regexes. -/
def isAsciiAlnum (c : Char) : Bool :=
  c.isAlpha || c.isDigit

/-- Lowercase a string character by character, modelling JS
`toLowerCase` on the ASCII identifiers this system handles. -/
def toLowerStr (s : String) : String :=
  String.mk (s.data.map Char.toLower)

/-- Trim leading and trailing whitespace, modelling JS `trim`. -/
def trimStr (s : String) : String :=
  String.mk (((s.data.dropWhile Char.isWhitespace).reverse.dropWhile Char.isWhitespace).reverse)

/-- Insert a space at each lowercase-to-uppercase boundary, embedding the
`replaceAll(/([a-z])([A-Z])/gu, '$1 $2')` camelCase split of
`tokenizeConfigName`. -/
def camelSplitChars : List Char → List Char
  | [] => []
  | [c] => [c]
  | c1 :: c2 :: rest =>
    if c1.isLower && c2.isUpper then
      c1 :: ' ' :: camelSplitChars (c2 :: rest)
    else
      c1 :: camelSplitChars (c2 :: rest)

/-- Split a character list into maximal runs of ASCII-alphanumeric
characters, dropping separators; embeds the combination of
`replaceAll(/[^a-zA-Z0-9]+/gu, ' ')`, `trim` and `split(/\s+/u)`. -/
def splitNonAlnumAux : List Char → List Char → List (List Char)
  | [], acc => if acc.isEmpty then [] else [acc.reverse]
  | c :: rest, acc =>
    if isAsciiAlnum c then
      splitNonAlnumAux rest (c :: acc)
    else
      (if acc.isEmpty then [] else [acc.reverse]) ++ splitNonAlnumAux rest []

/-- Embedding of `tokenizeConfigName` from src/lib/init-emojis.ts: camelCase
split, replace non-alphanumeric runs with spaces, lowercase, trim, split on
whitespace. -/
def tokenizeConfigName (configName : String) : List String :=
  (splitNonAlnumAux (camelSplitChars configName.data) []).map
    (fun cs => String.mk (cs.map Char.toLower))

/-- Modelled from the spec: `RESERVED_EMOJIS` is imported from
src/lib/emojis.ts, which is not part of the sources here. The spec
describes it as a fixed set of badges already used elsewhere in the plugin
(for example the "fixable" wrench and the "has-suggestions" light bulb);
the tests show the "recommended" checkmark is suggestible, so it is not in
the set. -/
def RESERVED_EMOJIS : List String :=
  ["🔧", "💡", "💼"]

/-- The fixed ordered fallback palette `FALLBACK_EMOJIS` of 18
colored-circle/square glyphs from src/lib/init-emojis.ts. -/
def FALLBACK_EMOJIS : List String :=
  ["🔴", "🟠", "🟡", "🟢", "🔵", "🟣", "🟤", "⚫", "⚪",
   "🟥", "🟧", "🟨", "🟩", "🟦", "🟪", "🟫", "⬛", "⬜"]

/-- The curated `KEYWORD_EMOJIS` keyword-to-emoji table from
src/lib/init-emojis.ts. -/
def KEYWORD_EMOJIS : List (String × String) :=
  [("base", "🧱"), ("browser", "🌐"), ("documentation", "📚"),
   ("docs", "📚"), ("electron", "⚛️"), ("error", "❗"),
   ("errors", "❗"), ("node", "🟢"), ("performance", "⚡"),
   ("react", "⚛️"), ("strict", "🔒"), ("style", "🎨"),
   ("test", "🧪"), ("testing", "🧪"), ("typescript", "⌨️"),
   ("warning", "🚸"), ("warnings", "🚸")]

/-- Modelled from the spec: `EMOJI_CONFIGS` is imported from
src/lib/emojis.ts, which is not part of the sources here. The spec
describes it as a curated default-config-name table, for example
"recommended" mapping to a checkmark. -/
def EMOJI_CONFIGS : List (String × String) :=
  [("recommended", "✅")]

/-- Association-list lookup returning the first matching value, the
behaviour of a JS `Map.get` / object-key lookup on unique keys. -/
def alookup (m : List (String × String)) (k : String) : Option String :=
  (m.find? (fun p => p.1 == k)).map Prod.snd

/-- Abstraction of the external `node-emoji` library plus the Unicode
pictographic test used by `normalizeEmojiCandidate`: `get` is
`nodeEmoji.get`, `search` is `nodeEmoji.search` projected to the matched
emoji strings, and `isPicto` is membership of the
`\p{Extended_Pictographic}` / `\p{Emoji_Presentation}` classes. -/
structure EmojiDict where
  get : String → Option String
  search : String → List String
  isPicto : Char → Bool

/-- Quote characters stripped by `normalizeEmojiCandidate`
(double quote, single quote, backtick). -/
def isQuoteChar (c : Char) : Bool :=
  c = Char.ofNat 34 || c = Char.ofNat 39 || c = Char.ofNat 96

/-- Characters allowed inside an `:alias:` shorthand,
the `[a-zA-Z0-9_+-]` class. -/
def isAliasChar (c : Char) : Bool :=
  isAsciiAlnum c || c = '_' || c = '+' || c = '-'

/-- Strip one leading and one trailing run of quote characters, embedding
`replaceAll(/^["'`]+|["'`]+$/gu, '')`. -/
def stripQuotes (s : String) : String :=
  String.mk (((s.data.dropWhile isQuoteChar).reverse.dropWhile isQuoteChar).reverse)

/-- Extract the alias name from an `:alias:` shorthand when the whole
string matches `^:([a-zA-Z0-9_+-]+):$`. -/
def aliasName (s : String) : Option String :=
  let cs := s.data
  let middle := (cs.drop 1).dropLast
  if cs.head? = some ':' && cs.getLast? = some ':' &&
      !middle.isEmpty && middle.all isAliasChar then
    some (String.mk middle)
  else
    none

/-- Keep an optional string only when it is non-empty, the truthiness
check JS performs on `nodeEmoji.get` results. -/
def optNonempty (o : Option String) : Option String :=
  o.bind (fun v => if v = "" then none else some v)

/-- Split on whitespace runs, dropping empty parts; embeds
`split(/\s+/u)` as consumed by a `find` over the parts. -/
def splitWsAux : List Char → List Char → List String
  | [], acc => if acc.isEmpty then [] else [String.mk acc.reverse]
  | c :: rest, acc =>
    if c.isWhitespace then
      (if acc.isEmpty then [] else [String.mk acc.reverse]) ++ splitWsAux rest []
    else
      splitWsAux rest (c :: acc)

/-- Embedding of `normalizeEmojiCandidate` from src/lib/init-emojis.ts:
trim and strip quotes, resolve an `:alias:` shorthand, try a direct
dictionary lookup, scan whitespace-separated parts for one containing a
pictographic code point, and finally accept the string verbatim when it
contains no alphanumeric character. -/
def normalizeEmojiCandidate (d : EmojiDict) (candidate : String) : Option String :=
  let trimmed := stripQuotes (trimStr candidate)
  if trimmed = "" then none
  else
    match (aliasName trimmed).bind (fun a => optNonempty (d.get a)) with
    | some fromAlias => some fromAlias
    | none =>
      match optNonempty (d.get trimmed) with
      | some fromName => some fromName
      | none =>
        match (splitWsAux trimmed.data []).find? (fun part => part.data.any d.isPicto) with
        | some tok => some tok
        | none =>
          if !trimmed.data.any isAsciiAlnum then some trimmed else none

/-- Embedding of `canUseEmoji`: a candidate is acceptable when it is
neither reserved nor already used. -/
def canUseEmoji (candidate : String) (usedEmojis : List String) : Bool :=
  !RESERVED_EMOJIS.contains candidate && !usedEmojis.contains candidate

/-- Embedding of `tryUseEmoji`: keep an optional candidate only when it is
truthy (non-empty) and acceptable. -/
def tryUseEmoji (candidate : Option String) (usedEmojis : List String) : Option String :=
  match candidate with
  | none => none
  | some c => if c ≠ "" && canUseEmoji c usedEmojis then some c else none

/-- The first three steps of the `suggestEmojiLocally` cascade (exact
default-config lookup, per-token keyword lookup, fuzzy search), returning
the first acceptable hit. -/
def suggestCascade (d : EmojiDict) (configName : String) (usedEmojis : List String) :
    Option String :=
  match tryUseEmoji (alookup EMOJI_CONFIGS (toLowerStr configName)) usedEmojis with
  | some e => some e
  | none =>
    match (tokenizeConfigName configName).findSome?
        (fun t => tryUseEmoji (alookup KEYWORD_EMOJIS t) usedEmojis) with
    | some e => some e
    | none =>
      (toLowerStr configName :: tokenizeConfigName configName).findSome? (fun term =>
        (d.search term).findSome?
          (fun m => tryUseEmoji (normalizeEmojiCandidate d m) usedEmojis))

/-- The fallback palette walk of `suggestEmojiLocally`: first palette entry
that is acceptable. -/
def fallbackChoice (usedEmojis : List String) : Option String :=
  FALLBACK_EMOJIS.find? (fun e => canUseEmoji e usedEmojis)

/-- Embedding of `suggestEmojiLocally` from src/lib/init-emojis.ts:
cascade first, then palette walk, and on exhaustion the palette's first
entry (`FALLBACK_EMOJIS[0]`). -/
def suggestEmojiLocally (d : EmojiDict) (configName : String) (usedEmojis : List String) :
    String :=
  match suggestCascade d configName usedEmojis with
  | some e => e
  | none =>
    match fallbackChoice usedEmojis with
    | some e => e
    | none => FALLBACK_EMOJIS.headD ""

/-- A concrete `EmojiDict` with an empty dictionary and search index, used
to evaluate the engine on closed inputs where no fuzzy hit is expected. -/
def trivialDict : EmojiDict where
  get := fun _ => none
  search := fun _ => []
  isPicto := fun _ => false

/-- JS `Set.add`: append the element unless already present. -/
def setInsert (s : List String) (x : String) : List String :=
  if s.contains x then s else s ++ [x]

/-- JS `new Set(values)`: deduplicate keeping first occurrences. -/
def setOfList (l : List String) : List String :=
  l.foldl setInsert []

/-- The keys of an assignment map, in insertion order. -/
def keysOf (m : List (String × String)) : List String :=
  m.map Prod.fst

/-- The values of an assignment map (`Map.values()`), in insertion
order. -/
def valuesOf (m : List (String × String)) : List String :=
  m.map Prod.snd

/-- JS `Map.set`: update the entry in place when the key is present,
otherwise append a new entry. -/
def mapSet (m : List (String × String)) (k v : String) : List (String × String) :=
  if (keysOf m).contains k then
    m.map (fun p => if p.1 == k then (k, v) else p)
  else
    m ++ [(k, v)]

/-- One name of the seeding loop of `generateInitEmojis`: copy a
caller-pinned emoji (`context.options.configEmojis.find(...)?.emoji`) into
the map when one is present and truthy. -/
def seedStep (pins : List (String × String)) (m : List (String × String))
    (name : String) : List (String × String) :=
  match alookup pins name with
  | some e => if e = "" then m else mapSet m name e
  | none => m

/-- The seeding phase of `generateInitEmojis`: run `seedStep` over all
config names starting from an empty map. -/
def seedPins (pins : List (String × String)) (configNames : List String) :
    List (String × String) :=
  configNames.foldl (seedStep pins) []

/-- State of the uniqueness allocator: the assignment map, the used-emoji
set, the list of generated (non-pinned) names, and an instrumentation flag
recording whether the `?? FALLBACK_EMOJIS[0]` palette-exhaustion branch of
`suggestEmojiLocally` was ever taken. -/
structure AllocResult where
  map : List (String × String)
  used : List String
  generated : List String
  exhausted : Bool

/-- Whether a call of `suggestEmojiLocally` on this state takes the
palette-exhaustion branch (cascade misses and the palette walk finds no
acceptable entry). -/
def suggestIsExhausted (d : EmojiDict) (configName : String) (usedEmojis : List String) :
    Bool :=
  (suggestCascade d configName usedEmojis).isNone && (fallbackChoice usedEmojis).isNone

/-- One iteration of the generation loop of `generateInitEmojis`: skip
names that already have an entry, otherwise take the local suggestion and
record it in the map, the used set and the generated-name list. -/
def allocStep (d : EmojiDict) (r : AllocResult) (name : String) : AllocResult :=
  if (keysOf r.map).contains name then r
  else
    let e := suggestEmojiLocally d name r.used
    { map := mapSet r.map name e
      used := setInsert r.used e
      generated := r.generated ++ [name]
      exhausted := r.exhausted || suggestIsExhausted d name r.used }

/-- The state of the allocator of `generateInitEmojis` from
src/lib/init-emojis.ts before its generation loop runs: pinned entries
seeded, used set seeded from their values. -/
def allocInit (pins : List (String × String)) (configNames : List String) :
    AllocResult :=
  { map := seedPins pins configNames
    used := setOfList (valuesOf (seedPins pins configNames))
    generated := []
    exhausted := false }

/-- The allocator phase as a fold of `allocStep` from the seeded state. -/
def allocate (d : EmojiDict) (pins : List (String × String)) (configNames : List String) :
    AllocResult :=
  configNames.foldl (allocStep d) (allocInit pins configNames)

/-- Shallow embedding of a parsed JSON value as produced by `JSON.parse`:
an object, an array, or a primitive.  The merger only discriminates
strings, and `isRecord` only discriminates objects. -/
inductive JsVal where
  | jstr (s : String)
  | jnum
  | jbool (b : Bool)
  | jnull
  | jarr
  | jobj (fields : List (String × JsVal))

/-- The `configNameLookup` map of `applyLlmSuggestions`: lowercased
candidate name to original name.  JS `Map` construction lets later entries
win, hence the lookup takes the last match. -/
def buildNameLookup (configNames : List String) : List (String × String) :=
  configNames.map (fun n => (toLowerStr n, n))

/-- Lookup in a JS `Map` built from a list of pairs where later duplicate
keys overwrite earlier ones. -/
def lookupLast (m : List (String × String)) (k : String) : Option String :=
  (m.reverse.find? (fun p => p.1 == k)).map Prod.snd

/-- State threaded through the AI suggestion merger: the assignment map
and the used-emoji set. -/
structure MergeState where
  map : List (String × String)
  used : List String

/-- Initial merger state: `usedEmojis = new Set(emojiByConfig.values())`. -/
def initMergeState (m : List (String × String)) : MergeState :=
  { map := m, used := setOfList (valuesOf m) }

/-- One entry of the `applyLlmSuggestions` loop from
src/lib/init-emojis.ts: require a string suggestion, match the key
case-insensitively against the candidate names and skip a falsy (missing
or empty-string) match, normalize, reject reserved or falsy results,
reject a missing or falsy current value, reject a no-op or an
already-used emoji, and otherwise accept by updating map and used set
together. -/
def mergeStep (d : EmojiDict) (nameLookup : List (String × String))
    (st : MergeState) (entry : String × JsVal) : MergeState :=
  match entry.2 with
  | JsVal.jstr s =>
    match lookupLast nameLookup (toLowerStr entry.1) with
    | none => st
    | some normalizedName =>
      if normalizedName = "" then st
      else
        match normalizeEmojiCandidate d s with
        | none => st
        | some ns =>
          if ns = "" || RESERVED_EMOJIS.contains ns then st
          else
            match alookup st.map normalizedName with
            | none => st
            | some current =>
              if current = "" then st
              else if current = ns then st
              else if st.used.contains ns then st
              else
                { map := mapSet st.map normalizedName ns
                  used := setInsert (st.used.erase current) ns }
  | _ => st

/-- Run the merger over the entries of the parsed model object in
iteration order. -/
def mergeRun (d : EmojiDict) (configNames : List String) (st : MergeState)
    (entries : List (String × JsVal)) : MergeState :=
  entries.foldl (mergeStep d (buildNameLookup configNames)) st

/-- Embedding of `applyLlmSuggestions` from src/lib/init-emojis.ts: fold
the merger over the model object's entries starting from the used set
rebuilt from the map's values, returning the final map. -/
def applyLlmSuggestions (d : EmojiDict) (configNamesToEnhance : List String)
    (emojiByConfig : List (String × String)) (entries : List (String × JsVal)) :
    List (String × String) :=
  (mergeRun d configNamesToEnhance (initMergeState emojiByConfig) entries).map

/-- The AI providers of src/lib/ai.ts.  The `AI_PROVIDER` enum itself
lives in src/lib/types.ts, which is not part of the sources here; the
variants are those keyed in `PROVIDER_METADATA`. -/
inductive AiProvider where
  | anthropic
  | groq
  | openai
  | openrouter
  | together
  | vercelAiGateway
  | xai
deriving DecidableEq

/-- The two wire protocols. -/
inductive WireProtocol where
  | openaiCompatible
  | anthropic
deriving DecidableEq

/-- Per-provider metadata record from src/lib/ai.ts. -/
structure ProviderMetadata where
  apiKeyEnvVar : String
  defaultModel : String
  endpoint : String
  protocol : WireProtocol

/-- The `PROVIDER_METADATA` table from src/lib/ai.ts. -/
def PROVIDER_METADATA : AiProvider → ProviderMetadata
  | .anthropic =>
    { apiKeyEnvVar := "ANTHROPIC_API_KEY", defaultModel := "claude-sonnet-4-6"
      endpoint := "https://api.anthropic.com/v1/messages", protocol := .anthropic }
  | .groq =>
    { apiKeyEnvVar := "GROQ_API_KEY", defaultModel := "llama-3.3-70b-versatile"
      endpoint := "https://api.groq.com/openai/v1/chat/completions"
      protocol := .openaiCompatible }
  | .openai =>
    { apiKeyEnvVar := "OPENAI_API_KEY", defaultModel := "gpt-5.2"
      endpoint := "https://api.openai.com/v1/chat/completions"
      protocol := .openaiCompatible }
  | .openrouter =>
    { apiKeyEnvVar := "OPENROUTER_API_KEY", defaultModel := "openai/gpt-5.2"
      endpoint := "https://openrouter.ai/api/v1/chat/completions"
      protocol := .openaiCompatible }
  | .together =>
    { apiKeyEnvVar := "TOGETHER_API_KEY", defaultModel := "openai/gpt-oss-20b"
      endpoint := "https://api.together.xyz/v1/chat/completions"
      protocol := .openaiCompatible }
  | .vercelAiGateway =>
    { apiKeyEnvVar := "VERCEL_AI_GATEWAY_API_KEY", defaultModel := "openai/gpt-5.2"
      endpoint := "https://ai-gateway.vercel.sh/v1/chat/completions"
      protocol := .openaiCompatible }
  | .xai =>
    { apiKeyEnvVar := "XAI_API_KEY", defaultModel := "grok-4-1-fast-reasoning"
      endpoint := "https://api.x.ai/v1/chat/completions", protocol := .openaiCompatible }

/-- The provider scan order `AI_PROVIDERS = Object.values(AI_PROVIDER)`,
in the declaration order of the metadata table. -/
def AI_PROVIDERS : List AiProvider :=
  [.anthropic, .groq, .openai, .openrouter, .together, .vercelAiGateway, .xai]

/-- The `SUPPORTED_API_KEY_ENV_VARS` list from src/lib/ai.ts: the
deduplicated API-key environment-variable names of all providers. -/
def SUPPORTED_API_KEY_ENV_VARS : List String :=
  setOfList (AI_PROVIDERS.map (fun p => (PROVIDER_METADATA p).apiKeyEnvVar))

/-- Embedding of `getOptionalEnvVar` from src/lib/ai.ts: an environment
value that is unset, empty, or the literal string "undefined" counts as
absent.  The process environment is a parameter. -/
def getOptionalEnvVar (env : String → Option String) (name : String) : Option String :=
  match env name with
  | none => none
  | some v => if v = "" || v = "undefined" then none else some v

/-- Structured form of the configuration errors thrown by
`resolveAiProviderConfig`. -/
inductive ResolveError where
  | missingExplicitKey (provider : AiProvider) (envVar : String)
  | noApiKey (vars : List String)
  | multipleApiKeys (vars : List String)
deriving DecidableEq

/-- Resolved provider configuration, the `AiProviderConfig` record. -/
structure AiProviderConfig where
  provider : AiProvider
  apiKey : String
  model : String
  endpoint : String
  protocol : WireProtocol

/-- The `providersWithApiKey` scan of `resolveAiProviderConfig`: providers
whose API-key environment variable is present, paired with the key. -/
def providersWithApiKey (env : String → Option String) : List (AiProvider × String) :=
  AI_PROVIDERS.filterMap (fun p =>
    (getOptionalEnvVar env (PROVIDER_METADATA p).apiKeyEnvVar).map (fun k => (p, k)))

/-- Embedding of `resolveAiProviderConfig` from src/lib/ai.ts: an explicit
provider must have its key set; otherwise scan all providers and demand
exactly one candidate. -/
def resolveAiProviderConfig (env : String → Option String) :
    Option AiProvider → Option String → Except ResolveError AiProviderConfig
  | some p, aiModel =>
    match getOptionalEnvVar env (PROVIDER_METADATA p).apiKeyEnvVar with
    | none => .error (.missingExplicitKey p (PROVIDER_METADATA p).apiKeyEnvVar)
    | some apiKey =>
      .ok { provider := p, apiKey := apiKey
            model := aiModel.getD (PROVIDER_METADATA p).defaultModel
            endpoint := (PROVIDER_METADATA p).endpoint
            protocol := (PROVIDER_METADATA p).protocol }
  | none, aiModel =>
    match providersWithApiKey env with
    | [] => .error (.noApiKey SUPPORTED_API_KEY_ENV_VARS)
    | [(p, apiKey)] =>
      .ok { provider := p, apiKey := apiKey
            model := aiModel.getD (PROVIDER_METADATA p).defaultModel
            endpoint := (PROVIDER_METADATA p).endpoint
            protocol := (PROVIDER_METADATA p).protocol }
    | _ =>
      .error (.multipleApiKeys
        ((providersWithApiKey env).map (fun c => (PROVIDER_METADATA c.1).apiKeyEnvVar)))

/-- The three backtick characters of a markdown code fence. -/
def fenceChars : List Char :=
  [Char.ofNat 96, Char.ofNat 96, Char.ofNat 96]

/-- Strip one leading markdown code fence, embedding the anchored
`replaceAll(/^```(?:json)?\s*/giu, '')` (the `^` anchor makes at most one
replacement, and the `i` flag makes the fence tag case-insensitive). -/
def stripLeadingFence (s : String) : String :=
  if s.data.take 3 = fenceChars then
    let r := s.data.drop 3
    let r2 := if (r.take 4).map Char.toLower = "json".data then r.drop 4 else r
    String.mk (r2.dropWhile Char.isWhitespace)
  else s

/-- Strip one trailing markdown code fence, embedding the anchored
`replaceAll(/\s*```$/gu, '')`. -/
def stripTrailingFence (s : String) : String :=
  if s.data.reverse.take 3 = fenceChars then
    String.mk (((s.data.reverse.drop 3).dropWhile Char.isWhitespace).reverse)
  else s

/-- Both fence-stripping passes of `parseLlmResponseObject`, in source
order. -/
def stripFences (s : String) : String :=
  stripTrailingFence (stripLeadingFence s)

/-- Index of the last occurrence of a character, `String.lastIndexOf`. -/
def lastIdxOf (c : Char) (cs : List Char) : Option Nat :=
  (cs.reverse.findIdx? (fun x => x == c)).map (fun i => cs.length - 1 - i)

/-- The brace extraction of `parseLlmResponseObject`: when a first `\x7b`
exists and the last `\x7d` lies strictly after it, slice that substring,
otherwise keep the fence-stripped text. -/
def extractBraces (s : String) : String :=
  match s.data.findIdx? (fun x => x == '{'), lastIdxOf '}' s.data with
  | some i, some j =>
    if i < j then String.mk ((s.data.drop i).take (j + 1 - i)) else s
  | some _, none => s
  | none, _ => s

/-- Embedding of `parseLlmResponseObject` from src/lib/init-emojis.ts
(the `Option`-returning variant; the src/lib/ai.ts variant throws instead
of returning `undefined`): trim, fail on empty, strip fences, extract the
brace-delimited substring, parse, and require an object.  `JSON.parse` is
a parameter standing for the JS builtin. -/
def parseLlmResponseObject (jparse : String → Option JsVal) (content : String) :
    Option (List (String × JsVal)) :=
  let trimmed := trimStr content
  if trimmed = "" then none
  else
    match jparse (extractBraces (stripFences trimmed)) with
    | some (JsVal.jobj fields) => some fields
    | _ => none

/-!
Helper lemmas about the local suggestion engine.
-/

theorem tryUseEmoji_eq_some {o : Option String} {used : List String} {e : String}
    (h : tryUseEmoji o used = some e) : e ≠ "" ∧ canUseEmoji e used = true := by
  cases o with
  | none => simp [tryUseEmoji] at h
  | some c =>
    simp only [tryUseEmoji] at h
    split at h
    · rename_i hc
      cases h
      simpa using hc
    · cases h

theorem suggestCascade_eq_some {d : EmojiDict} {n : String} {used : List String} {e : String}
    (h : suggestCascade d n used = some e) : e ≠ "" ∧ canUseEmoji e used = true := by
  unfold suggestCascade at h
  split at h
  · rename_i e1 h1
    cases h
    exact tryUseEmoji_eq_some h1
  · split at h
    · rename_i e1 h1
      cases h
      obtain ⟨t, -, ht⟩ := List.exists_of_findSome?_eq_some h1
      exact tryUseEmoji_eq_some ht
    · obtain ⟨term, -, hterm⟩ := List.exists_of_findSome?_eq_some h
      obtain ⟨m, -, hm⟩ := List.exists_of_findSome?_eq_some hterm
      exact tryUseEmoji_eq_some hm

theorem string_contains_iff {l : List String} {a : String} :
    l.contains a = true ↔ a ∈ l := by
  simp [List.contains_iff_exists_mem_beq]

theorem fallbackChoice_eq_some {used : List String} {e : String}
    (h : fallbackChoice used = some e) :
    e ∈ FALLBACK_EMOJIS ∧ canUseEmoji e used = true := by
  unfold fallbackChoice at h
  exact ⟨List.mem_of_find?_eq_some h, by simpa using List.find?_some h⟩

theorem canUseEmoji_not_used {e : String} {used : List String}
    (h : canUseEmoji e used = true) : e ∉ used := by
  simp only [canUseEmoji, Bool.and_eq_true, Bool.not_eq_true'] at h
  intro hm
  rw [string_contains_iff.2 hm] at h
  exact Bool.noConfusion h.2

theorem canUseEmoji_not_reserved {e : String} {used : List String}
    (h : canUseEmoji e used = true) : e ∉ RESERVED_EMOJIS := by
  simp only [canUseEmoji, Bool.and_eq_true, Bool.not_eq_true'] at h
  intro hm
  rw [string_contains_iff.2 hm] at h
  exact Bool.noConfusion h.1

/-- C1: for every config name and used-emoji set, `suggestEmojiLocally` is
total and returns a non-empty emoji string, and when the cascade misses
and all 18 fallback-palette entries are already used it returns the
palette's first entry 🔴 regardless of collision. -/
theorem suggestEmojiLocally_total_and_exhaustion
    (d : EmojiDict) (configName : String) (usedEmojis : List String) :
    suggestEmojiLocally d configName usedEmojis ≠ "" ∧
      ((suggestCascade d configName usedEmojis = none ∧
          ∀ e ∈ FALLBACK_EMOJIS, e ∈ usedEmojis) →
        suggestEmojiLocally d configName usedEmojis = "🔴") := by
  constructor
  · unfold suggestEmojiLocally
    split
    · rename_i e h
      exact (suggestCascade_eq_some h).1
    · split
      · rename_i e h
        have hne : ∀ x ∈ FALLBACK_EMOJIS, x ≠ "" := by decide
        exact hne e (fallbackChoice_eq_some h).1
      · decide
  · rintro ⟨hc, hall⟩
    have hfb : fallbackChoice usedEmojis = none := by
      cases hfc : fallbackChoice usedEmojis with
      | none => rfl
      | some e =>
        obtain ⟨hm, hcan⟩ := fallbackChoice_eq_some hfc
        exact absurd (hall e hm) (canUseEmoji_not_used hcan)
    unfold suggestEmojiLocally
    rw [hc, hfb]
    rfl

/-- Witness for C1 at a concrete input: an unmatched name with the whole
palette already used. -/
theorem suggestEmojiLocally_total_witness :
    suggestEmojiLocally trivialDict "qzxqzx" FALLBACK_EMOJIS ≠ "" ∧
      suggestEmojiLocally trivialDict "qzxqzx" FALLBACK_EMOJIS = "🔴" := by
  have h := suggestEmojiLocally_total_and_exhaustion trivialDict "qzxqzx" FALLBACK_EMOJIS
  exact ⟨h.1, h.2 ⟨by decide, fun e he => he⟩⟩

/-!
Helper lemmas about the set and map primitives.
-/

theorem contains_eq_false_iff {l : List String} {a : String} :
    l.contains a = false ↔ a ∉ l := by
  rw [← string_contains_iff]
  cases l.contains a <;> simp

theorem setInsert_mem {s : List String} {x y : String} :
    x ∈ setInsert s y ↔ x ∈ s ∨ x = y := by
  unfold setInsert
  split
  · rename_i h
    have hy := string_contains_iff.1 h
    constructor
    · exact Or.inl
    · rintro (hx | rfl)
      · exact hx
      · exact hy
  · simp

theorem setInsert_nodup {s : List String} {y : String} (h : s.Nodup) :
    (setInsert s y).Nodup := by
  unfold setInsert
  split
  · exact h
  · rename_i hc
    have hy : y ∉ s := contains_eq_false_iff.1 (by simpa using hc)
    simp [List.nodup_append, h, List.disjoint_singleton, hy]

theorem foldl_setInsert_mem :
    ∀ (l acc : List String) (x : String),
      x ∈ l.foldl setInsert acc ↔ x ∈ acc ∨ x ∈ l := by
  intro l
  induction l with
  | nil => simp
  | cons a l ih =>
    intro acc x
    rw [List.foldl_cons, ih, setInsert_mem]
    simp only [List.mem_cons]
    tauto

theorem foldl_setInsert_nodup :
    ∀ (l acc : List String), acc.Nodup → (l.foldl setInsert acc).Nodup := by
  intro l
  induction l with
  | nil => exact fun acc h => h
  | cons a l ih => exact fun acc h => ih _ (setInsert_nodup h)

theorem setOfList_mem {l : List String} {x : String} :
    x ∈ setOfList l ↔ x ∈ l := by
  unfold setOfList
  rw [foldl_setInsert_mem]
  simp

theorem setOfList_nodup {l : List String} : (setOfList l).Nodup :=
  foldl_setInsert_nodup l [] List.nodup_nil

theorem keysOf_mapSet_of_mem {m : List (String × String)} {k v : String}
    (h : k ∈ keysOf m) : keysOf (mapSet m k v) = keysOf m := by
  unfold mapSet
  rw [if_pos (string_contains_iff.2 h)]
  unfold keysOf
  rw [List.map_map]
  apply List.map_congr_left
  intro p _
  simp only [Function.comp_apply]
  split
  · rename_i hb
    exact (eq_of_beq hb).symm
  · rfl

theorem mapSet_of_not_mem {m : List (String × String)} {k v : String}
    (h : k ∉ keysOf m) : mapSet m k v = m ++ [(k, v)] := by
  unfold mapSet
  rw [if_neg (fun hc => h (string_contains_iff.1 hc))]

/-!
Helper lemmas about the allocator.
-/

theorem suggestEmojiLocally_not_used {d : EmojiDict} {n : String} {used : List String}
    (h : suggestIsExhausted d n used = false) :
    suggestEmojiLocally d n used ∉ used := by
  unfold suggestIsExhausted at h
  unfold suggestEmojiLocally
  cases hc : suggestCascade d n used with
  | some e => exact canUseEmoji_not_used (suggestCascade_eq_some hc).2
  | none =>
    cases hf : fallbackChoice used with
    | some e => exact canUseEmoji_not_used (fallbackChoice_eq_some hf).2
    | none => rw [hc, hf] at h; simp at h

theorem allocStep_exhausted_false {d : EmojiDict} {r : AllocResult} {name : String}
    (h : (allocStep d r name).exhausted = false) : r.exhausted = false := by
  unfold allocStep at h
  split at h
  · exact h
  · simp only [Bool.or_eq_false_iff] at h
    exact h.1

theorem allocFold_exhausted_false {d : EmojiDict} :
    ∀ (names : List String) (r : AllocResult),
      ((names.foldl (allocStep d) r).exhausted = false) → r.exhausted = false := by
  intro names
  induction names with
  | nil => exact fun r h => h
  | cons n rest ih => exact fun r h => allocStep_exhausted_false (ih _ h)

theorem allocFold_spec {d : EmojiDict} :
    ∀ (pending : List String) (r : AllocResult),
      (keysOf r.map).Nodup →
      (valuesOf r.map).Nodup →
      (∀ v ∈ valuesOf r.map, v ∈ r.used) →
      ((pending.foldl (allocStep d) r).exhausted = false) →
      (keysOf (pending.foldl (allocStep d) r).map).Nodup ∧
        (valuesOf (pending.foldl (allocStep d) r).map).Nodup ∧
        (∀ v ∈ valuesOf (pending.foldl (allocStep d) r).map,
          v ∈ (pending.foldl (allocStep d) r).used) ∧
        (∀ n, n ∈ keysOf (pending.foldl (allocStep d) r).map ↔
          n ∈ keysOf r.map ∨ n ∈ pending) := by
  intro pending
  induction pending with
  | nil =>
    intro r h1 h2 h3 _
    exact ⟨h1, h2, h3, by simp⟩
  | cons name rest ih =>
    intro r h1 h2 h3 hexh
    rw [List.foldl_cons] at hexh ⊢
    by_cases hmem : name ∈ keysOf r.map
    · have hstep : allocStep d r name = r := by
        unfold allocStep
        rw [if_pos (string_contains_iff.2 hmem)]
      rw [hstep] at hexh ⊢
      obtain ⟨g1, g2, g3, g4⟩ := ih r h1 h2 h3 hexh
      refine ⟨g1, g2, g3, fun n => ?_⟩
      rw [g4]
      simp only [List.mem_cons]
      constructor
      · rintro (hk | hr)
        · exact Or.inl hk
        · exact Or.inr (Or.inr hr)
      · rintro (hk | rfl | hr)
        · exact Or.inl hk
        · exact Or.inl hmem
        · exact Or.inr hr
    · have hstep : allocStep d r name =
          { map := mapSet r.map name (suggestEmojiLocally d name r.used)
            used := setInsert r.used (suggestEmojiLocally d name r.used)
            generated := r.generated ++ [name]
            exhausted := r.exhausted || suggestIsExhausted d name r.used } := by
        unfold allocStep
        rw [if_neg (fun hc => hmem (string_contains_iff.1 hc))]
      have hexh1 : (allocStep d r name).exhausted = false :=
        allocFold_exhausted_false rest _ hexh
      have hexhstep : suggestIsExhausted d name r.used = false := by
        rw [hstep] at hexh1
        simp only [Bool.or_eq_false_iff] at hexh1
        exact hexh1.2
      have hnotused := suggestEmojiLocally_not_used hexhstep
      rw [hstep] at hexh ⊢
      set e := suggestEmojiLocally d name r.used with he
      have hmap : mapSet r.map name e = r.map ++ [(name, e)] := mapSet_of_not_mem hmem
      have hkeys0 : keysOf (mapSet r.map name e) = keysOf r.map ++ [name] := by
        rw [hmap]
        unfold keysOf
        rw [List.map_append]
        rfl
      have hvals0 : valuesOf (mapSet r.map name e) = valuesOf r.map ++ [e] := by
        rw [hmap]
        unfold valuesOf
        rw [List.map_append]
        rfl
      have hkeys1 : (keysOf (mapSet r.map name e)).Nodup := by
        rw [hkeys0, List.nodup_append]
        refine ⟨h1, List.nodup_singleton _, ?_⟩
        intro a ha hb
        rw [List.mem_singleton] at hb
        subst hb
        exact hmem ha
      have hvals1 : (valuesOf (mapSet r.map name e)).Nodup := by
        have henot : e ∉ valuesOf r.map := fun hv => hnotused (h3 e hv)
        rw [hvals0, List.nodup_append]
        refine ⟨h2, List.nodup_singleton _, ?_⟩
        intro a ha hb
        rw [List.mem_singleton] at hb
        subst hb
        exact henot ha
      have hsub1 : ∀ v ∈ valuesOf (mapSet r.map name e), v ∈ setInsert r.used e := by
        intro v hv
        rw [hvals0] at hv
        rcases List.mem_append.1 hv with hv | hv
        · exact setInsert_mem.2 (Or.inl (h3 v hv))
        · rw [List.mem_singleton] at hv
          exact setInsert_mem.2 (Or.inr hv)
      obtain ⟨g1, g2, g3, g4⟩ := ih _ hkeys1 hvals1 hsub1 hexh
      refine ⟨g1, g2, g3, fun n => ?_⟩
      rw [g4]
      rw [hkeys0]
      simp only [List.mem_append, List.mem_singleton, List.mem_cons]
      tauto

theorem seedStep_keys (pins : List (String × String)) (m : List (String × String))
    (name : String) :
    ((keysOf m).Nodup → (keysOf (seedStep pins m name)).Nodup) ∧
      (∀ k ∈ keysOf (seedStep pins m name), k ∈ keysOf m ∨ k = name) := by
  unfold seedStep
  split
  · rename_i e _
    split
    · exact ⟨id, fun k hk => Or.inl hk⟩
    · by_cases hmem : name ∈ keysOf m
      · rw [keysOf_mapSet_of_mem hmem]
        exact ⟨id, fun k hk => Or.inl hk⟩
      · rw [mapSet_of_not_mem hmem]
        have hkeq : keysOf (m ++ [(name, e)]) = keysOf m ++ [name] := by
          unfold keysOf
          rw [List.map_append]
          rfl
        rw [hkeq]
        constructor
        · intro h1
          rw [List.nodup_append]
          refine ⟨h1, List.nodup_singleton _, ?_⟩
          intro a ha hb
          rw [List.mem_singleton] at hb
          subst hb
          exact hmem ha
        · intro k hk
          rcases List.mem_append.1 hk with hk | hk
          · exact Or.inl hk
          · exact Or.inr (List.mem_singleton.1 hk)
  · exact ⟨id, fun k hk => Or.inl hk⟩

theorem seedFold_keys (pins : List (String × String)) :
    ∀ (names : List String) (m : List (String × String)),
      (keysOf m).Nodup →
      (keysOf (names.foldl (seedStep pins) m)).Nodup ∧
        (∀ k ∈ keysOf (names.foldl (seedStep pins) m), k ∈ keysOf m ∨ k ∈ names) := by
  intro names
  induction names with
  | nil => exact fun m h => ⟨h, fun k hk => Or.inl hk⟩
  | cons n rest ih =>
    intro m h
    rw [List.foldl_cons]
    obtain ⟨s1, s2⟩ := seedStep_keys pins m n
    obtain ⟨g1, g2⟩ := ih _ (s1 h)
    refine ⟨g1, fun k hk => ?_⟩
    rcases g2 k hk with hk1 | hk1
    · rcases s2 k hk1 with hk2 | rfl
      · exact Or.inl hk2
      · exact Or.inr (List.mem_cons_self _ _)
    · exact Or.inr (List.mem_cons_of_mem _ hk1)

theorem seedPins_keys (pins : List (String × String)) (names : List String) :
    (keysOf (seedPins pins names)).Nodup ∧
      ∀ k ∈ keysOf (seedPins pins names), k ∈ names := by
  obtain ⟨g1, g2⟩ := seedFold_keys pins names [] List.nodup_nil
  refine ⟨g1, fun k hk => ?_⟩
  rcases g2 k hk with hk1 | hk1
  · simp [keysOf] at hk1
  · exact hk1

/-- C2 (amended): when the caller-pinned values seeded into the map are
pairwise distinct and the fallback palette is not exhausted during
generation, the allocator covers every input name exactly once and all
assigned emoji values are pairwise distinct. -/
theorem allocate_covers_and_unique (d : EmojiDict) (pins : List (String × String))
    (names : List String) (hnames : names.Nodup)
    (hpins : (valuesOf (seedPins pins names)).Nodup)
    (hexh : (allocate d pins names).exhausted = false) :
    (keysOf (allocate d pins names).map).Perm names ∧
      (valuesOf (allocate d pins names).map).Nodup := by
  unfold allocate at hexh ⊢
  obtain ⟨k1, k2⟩ := seedPins_keys pins names
  have hsub : ∀ v ∈ valuesOf (seedPins pins names),
      v ∈ setOfList (valuesOf (seedPins pins names)) := by
    intro v hv
    exact setOfList_mem.2 hv
  obtain ⟨g1, g2, g3, g4⟩ := allocFold_spec names _ k1 hpins hsub hexh
  refine ⟨?_, g2⟩
  apply List.perm_of_nodup_nodup_toFinset_eq g1 hnames
  ext n
  simp only [List.mem_toFinset]
  rw [g4]
  constructor
  · rintro (hk | hn)
    · exact k2 n hk
    · exact hn
  · exact Or.inr

/-- Witness for C2 at a concrete input: two unpinned names receive the
first two palette entries. -/
theorem allocate_covers_and_unique_witness :
    (keysOf (allocate trivialDict [] ["alpha", "beta"]).map).Perm ["alpha", "beta"] ∧
      (valuesOf (allocate trivialDict [] ["alpha", "beta"]).map).Nodup :=
  allocate_covers_and_unique trivialDict [] ["alpha", "beta"]
    (by decide) (by decide) (by decide)

/-- C2 counterexample: two caller-pinned assignments sharing an emoji; the
palette is never consulted (no exhaustion), yet the assigned values are
not pairwise distinct, contradicting the claim as stated. -/
theorem allocate_unique_counterexample :
    (allocate trivialDict [("a", "🔴"), ("b", "🔴")] ["a", "b"]).exhausted = false ∧
      (keysOf (allocate trivialDict [("a", "🔴"), ("b", "🔴")] ["a", "b"]).map).Perm
        ["a", "b"] ∧
      ¬ (valuesOf (allocate trivialDict [("a", "🔴"), ("b", "🔴")] ["a", "b"]).map).Nodup := by
  refine ⟨by decide, by decide, by decide⟩

/-!
Reserved-emoji exclusion.
-/

theorem suggestEmojiLocally_not_reserved (d : EmojiDict) (n : String)
    (used : List String) : suggestEmojiLocally d n used ∉ RESERVED_EMOJIS := by
  unfold suggestEmojiLocally
  cases hc : suggestCascade d n used with
  | some e => exact canUseEmoji_not_reserved (suggestCascade_eq_some hc).2
  | none =>
    cases hf : fallbackChoice used with
    | some e => exact canUseEmoji_not_reserved (fallbackChoice_eq_some hf).2
    | none => decide

theorem valuesOf_mapSet_subset {m : List (String × String)} {k v x : String}
    (h : x ∈ valuesOf (mapSet m k v)) : x ∈ valuesOf m ∨ x = v := by
  unfold mapSet at h
  split at h
  · unfold valuesOf at h ⊢
    rw [List.map_map] at h
    obtain ⟨p, hp, hpx⟩ := List.mem_map.1 h
    simp only [Function.comp_apply] at hpx
    split at hpx
    · exact Or.inr hpx.symm
    · exact Or.inl (List.mem_map.2 ⟨p, hp, hpx⟩)
  · unfold valuesOf at h ⊢
    rw [List.map_append] at h
    rcases List.mem_append.1 h with h | h
    · exact Or.inl h
    · exact Or.inr (List.mem_singleton.1 h)

theorem allocFold_values_closure {d : EmojiDict} :
    ∀ (names : List String) (r : AllocResult) (x : String),
      x ∈ valuesOf (names.foldl (allocStep d) r).map →
      x ∈ valuesOf r.map ∨ x ∉ RESERVED_EMOJIS := by
  intro names
  induction names with
  | nil => exact fun r x h => Or.inl h
  | cons name rest ih =>
    intro r x h
    rw [List.foldl_cons] at h
    rcases ih _ x h with h1 | h1
    · unfold allocStep at h1
      split at h1
      · exact Or.inl h1
      · rcases valuesOf_mapSet_subset h1 with h2 | h2
        · exact Or.inl h2
        · subst h2
          exact Or.inr (suggestEmojiLocally_not_reserved d name r.used)
    · exact Or.inr h1

theorem mergeStep_values_closure {d : EmojiDict} {lk : List (String × String)}
    {st : MergeState} {en : String × JsVal} {x : String}
    (h : x ∈ valuesOf (mergeStep d lk st en).map) :
    x ∈ valuesOf st.map ∨ x ∉ RESERVED_EMOJIS := by
  unfold mergeStep at h
  split at h
  · split at h
    · exact Or.inl h
    · split at h
      · exact Or.inl h
      · split at h
        · exact Or.inl h
        · rename_i ns _
          split at h
          · exact Or.inl h
          · rename_i hns
            split at h
            · exact Or.inl h
            · split at h
              · exact Or.inl h
              · split at h
                · exact Or.inl h
                · split at h
                  · exact Or.inl h
                  · simp only at h
                    rcases valuesOf_mapSet_subset h with h2 | h2
                    · exact Or.inl h2
                    · subst h2
                      simp only [Bool.or_eq_true, not_or, decide_eq_true_eq] at hns
                      push_neg at hns
                      exact Or.inr fun hm => hns.2 (string_contains_iff.2 hm)
  · exact Or.inl h

theorem mergeRun_values_closure {d : EmojiDict} {cfg : List String} :
    ∀ (entries : List (String × JsVal)) (st : MergeState) (x : String),
      x ∈ valuesOf (mergeRun d cfg st entries).map →
      x ∈ valuesOf st.map ∨ x ∉ RESERVED_EMOJIS := by
  intro entries
  induction entries with
  | nil => exact fun st x h => Or.inl h
  | cons en rest ih =>
    intro st x h
    unfold mergeRun at h ih
    rw [List.foldl_cons] at h
    rcases ih _ x h with h1 | h1
    · exact mergeStep_values_closure h1
    · exact Or.inr h1

/-- C3 (amended): every emoji produced by the local suggestion engine is
outside the reserved set, and both the allocator and the AI merger only
ever add non-reserved values — any reserved emoji in the final map must
already have been among the caller-pinned (seeded) or initial values.  A
caller-pinned reserved emoji itself is kept verbatim (see the
counterexample). -/
theorem emitted_emojis_not_reserved (d : EmojiDict) :
    (∀ n used, suggestEmojiLocally d n used ∉ RESERVED_EMOJIS) ∧
      (∀ pins names x, x ∈ valuesOf (allocate d pins names).map →
        x ∈ valuesOf (seedPins pins names) ∨ x ∉ RESERVED_EMOJIS) ∧
      (∀ names entries m x, x ∈ valuesOf (applyLlmSuggestions d names m entries) →
        x ∈ valuesOf m ∨ x ∉ RESERVED_EMOJIS) := by
  refine ⟨suggestEmojiLocally_not_reserved d, ?_, ?_⟩
  · intro pins names x h
    unfold allocate at h
    exact allocFold_values_closure names _ x h
  · intro names entries m x h
    unfold applyLlmSuggestions at h
    exact mergeRun_values_closure entries _ x h

/-- Witness for C3 at a concrete input: the allocator value assigned to an
unmatched name is not reserved. -/
theorem emitted_emojis_not_reserved_witness :
    "🔴" ∈ valuesOf (seedPins [] ["qzx"]) ∨ "🔴" ∉ RESERVED_EMOJIS :=
  (emitted_emojis_not_reserved trivialDict).2.1 [] ["qzx"] "🔴" (by decide)

/-- C3 counterexample: a caller-pinned reserved emoji (the fixable wrench)
survives allocation and an AI pass untouched, so the final AssignmentMap
does contain a reserved emoji, contradicting the claim as stated for
pinned values. -/
theorem reserved_in_final_map_counterexample :
    "🔧" ∈ RESERVED_EMOJIS ∧
      "🔧" ∈ valuesOf (applyLlmSuggestions trivialDict ["alpha"]
        (allocate trivialDict [("alpha", "🔧")] ["alpha"]).map []) := by
  refine ⟨by decide, by decide⟩

/-!
The used set as a view of the assignment values.
-/

theorem keysOf_append_single {m : List (String × String)} {k v : String} :
    keysOf (m ++ [(k, v)]) = keysOf m ++ [k] := by
  unfold keysOf
  rw [List.map_append]
  rfl

theorem valuesOf_append_single {m : List (String × String)} {k v : String} :
    valuesOf (m ++ [(k, v)]) = valuesOf m ++ [v] := by
  unfold valuesOf
  rw [List.map_append]
  rfl

theorem keysOf_middle {m1 m2 : List (String × String)} {k v : String} :
    keysOf (m1 ++ (k, v) :: m2) = keysOf m1 ++ k :: keysOf m2 := by
  unfold keysOf
  rw [List.map_append]
  rfl

theorem valuesOf_middle {m1 m2 : List (String × String)} {k v : String} :
    valuesOf (m1 ++ (k, v) :: m2) = valuesOf m1 ++ v :: valuesOf m2 := by
  unfold valuesOf
  rw [List.map_append]
  rfl

/-- The invariant of claim C4: the used set holds exactly the emoji values
currently present in the assignment map. -/
def UsedMatchesValues (used : List String) (m : List (String × String)) : Prop :=
  ∀ x, x ∈ used ↔ x ∈ valuesOf m

theorem allocInit_usedMatches {pins : List (String × String)} {names : List String} :
    UsedMatchesValues (allocInit pins names).used (allocInit pins names).map :=
  fun _ => setOfList_mem

theorem allocStep_usedMatches {d : EmojiDict} {r : AllocResult} {name : String}
    (h : UsedMatchesValues r.used r.map) :
    UsedMatchesValues (allocStep d r name).used (allocStep d r name).map := by
  unfold allocStep
  split
  · exact h
  · rename_i hc
    have hmem : name ∉ keysOf r.map := fun hm => hc (string_contains_iff.2 hm)
    intro x
    simp only
    rw [mapSet_of_not_mem hmem, valuesOf_append_single, setInsert_mem,
      List.mem_append, List.mem_singleton, h x]

theorem allocFold_usedMatches {d : EmojiDict} :
    ∀ (names : List String) (r : AllocResult), UsedMatchesValues r.used r.map →
      UsedMatchesValues (names.foldl (allocStep d) r).used
        (names.foldl (allocStep d) r).map := by
  intro names
  induction names with
  | nil => exact fun r h => h
  | cons n rest ih => exact fun r h => ih _ (allocStep_usedMatches h)

theorem alookup_decomp {m : List (String × String)} {k cur : String}
    (hk : (keysOf m).Nodup) (h : alookup m k = some cur) :
    ∃ m1 m2, m = m1 ++ (k, cur) :: m2 ∧ k ∉ keysOf m1 ∧ k ∉ keysOf m2 := by
  induction m with
  | nil => simp [alookup] at h
  | cons p m ih =>
    unfold alookup at h
    rw [List.find?_cons] at h
    have hk2 : (keysOf m).Nodup := (List.nodup_cons.1 hk).2
    by_cases hb : (p.1 == k) = true
    · rw [hb] at h
      have h1 : p.1 = k := by simpa using hb
      have h2 : p.2 = cur := by simpa using h
      refine ⟨[], m, ?_, by simp [keysOf], ?_⟩
      · rw [List.nil_append]
        congr 1
        rw [← h1, ← h2]
      · rw [← h1]
        exact (List.nodup_cons.1 hk).1
    · rw [Bool.of_not_eq_true hb] at h
      obtain ⟨m1, m2, he, hm1, hm2⟩ := ih hk2 h
      refine ⟨p :: m1, m2, by rw [he, List.cons_append], ?_, hm2⟩
      intro hmem
      unfold keysOf at hmem
      rw [List.map_cons, List.mem_cons] at hmem
      rcases hmem with hmem | hmem
      · exact hb (by simp [hmem])
      · exact hm1 hmem

theorem map_set_entry_id {m : List (String × String)} {k v : String}
    (h : k ∉ keysOf m) :
    m.map (fun p => if p.1 == k then (k, v) else p) = m := by
  have hcong : ∀ p ∈ m, (if p.1 == k then (k, v) else p) = id p := by
    intro p hp
    split
    · rename_i hb
      exact absurd (List.mem_map.2 ⟨p, hp, eq_of_beq hb⟩) h
    · rfl
  rw [List.map_congr_left hcong, List.map_id]

theorem mapSet_decomp {m1 m2 : List (String × String)} {k cur v : String}
    (h1 : k ∉ keysOf m1) (h2 : k ∉ keysOf m2) :
    mapSet (m1 ++ (k, cur) :: m2) k v = m1 ++ (k, v) :: m2 := by
  unfold mapSet
  have hmem : k ∈ keysOf (m1 ++ (k, cur) :: m2) := by
    rw [keysOf_middle, List.mem_append, List.mem_cons]
    exact Or.inr (Or.inl rfl)
  rw [if_pos (string_contains_iff.2 hmem), List.map_append, List.map_cons]
  rw [map_set_entry_id h1, map_set_entry_id h2]
  congr 2
  rw [if_pos (beq_self_eq_true k)]

/-- Every part of the merger invariant: keys without duplicates, values
without duplicates, used set without duplicates, and the used set equal
(as a set) to the map's values. -/
def MergerInv (st : MergeState) : Prop :=
  (keysOf st.map).Nodup ∧ (valuesOf st.map).Nodup ∧ st.used.Nodup ∧
    UsedMatchesValues st.used st.map

theorem initMergeState_inv {m : List (String × String)}
    (hk : (keysOf m).Nodup) (hv : (valuesOf m).Nodup) :
    MergerInv (initMergeState m) :=
  ⟨hk, hv, setOfList_nodup, fun _ => setOfList_mem⟩

theorem mergeStep_inv {d : EmojiDict} {lk : List (String × String)}
    {st : MergeState} {en : String × JsVal} (h : MergerInv st) :
    MergerInv (mergeStep d lk st en) := by
  obtain ⟨hK, hV, hU, hUV⟩ := h
  unfold mergeStep
  cases hv : en.2 with
  | jstr s =>
    cases hlk : lookupLast lk (toLowerStr en.1) with
    | none => exact ⟨hK, hV, hU, hUV⟩
    | some nm =>
      simp only
      by_cases hnm : nm = ""
      · rw [if_pos hnm]
        exact ⟨hK, hV, hU, hUV⟩
      · rw [if_neg hnm]
        cases hns : normalizeEmojiCandidate d s with
        | none => exact ⟨hK, hV, hU, hUV⟩
        | some ns =>
          simp only
          by_cases hres : (decide (ns = "") || RESERVED_EMOJIS.contains ns) = true
          · rw [if_pos hres]
            exact ⟨hK, hV, hU, hUV⟩
          · rw [if_neg hres]
            cases hcur : alookup st.map nm with
            | none => exact ⟨hK, hV, hU, hUV⟩
            | some cur =>
              simp only
              by_cases hce : cur = ""
              · rw [if_pos hce]
                exact ⟨hK, hV, hU, hUV⟩
              · rw [if_neg hce]
                by_cases heq2 : cur = ns
                · rw [if_pos heq2]
                  exact ⟨hK, hV, hU, hUV⟩
                · rw [if_neg heq2]
                  by_cases hused : st.used.contains ns = true
                  · rw [if_pos hused]
                    exact ⟨hK, hV, hU, hUV⟩
                  · rw [if_neg hused]
                    have hnu : ns ∉ st.used := fun hm => hused (string_contains_iff.2 hm)
                    have hnv : ns ∉ valuesOf st.map := fun hm => hnu ((hUV ns).2 hm)
                    obtain ⟨m1, m2, heq, h1, h2⟩ := alookup_decomp hK hcur
                    have hms : mapSet st.map nm ns = m1 ++ (nm, ns) :: m2 := by
                      rw [heq]
                      exact mapSet_decomp h1 h2
                    have hvals : valuesOf st.map = valuesOf m1 ++ cur :: valuesOf m2 := by
                      rw [heq, valuesOf_middle]
                    have hvals2 : valuesOf (mapSet st.map nm ns) =
                        valuesOf m1 ++ ns :: valuesOf m2 := by
                      rw [hms, valuesOf_middle]
                    have hkeys2 : keysOf (mapSet st.map nm ns) = keysOf st.map := by
                      rw [hms, heq, keysOf_middle, keysOf_middle]
                    have hVmid := List.nodup_cons.1 (List.nodup_middle.1 (hvals ▸ hV))
                    have hcv1 : cur ∉ valuesOf m1 := fun hm =>
                      hVmid.1 (List.mem_append.2 (Or.inl hm))
                    have hcv2 : cur ∉ valuesOf m2 := fun hm =>
                      hVmid.1 (List.mem_append.2 (Or.inr hm))
                    refine ⟨?_, ?_, ?_, ?_⟩
                    · simp only
                      rw [hkeys2]
                      exact hK
                    · simp only
                      rw [hvals2, List.nodup_middle, List.nodup_cons]
                      refine ⟨?_, hVmid.2⟩
                      intro hm
                      apply hnv
                      rw [hvals, List.mem_append]
                      rw [List.mem_append] at hm
                      rcases hm with hm | hm
                      · exact Or.inl hm
                      · exact Or.inr (List.mem_cons_of_mem _ hm)
                    · exact setInsert_nodup (hU.erase cur)
                    · intro x
                      simp only
                      rw [hvals2, setInsert_mem, hU.mem_erase_iff,
                        List.mem_append, List.mem_cons]
                      constructor
                      · rintro (⟨hxc, hxu⟩ | rfl)
                        · have hx2 := (hUV x).1 hxu
                          rw [hvals, List.mem_append, List.mem_cons] at hx2
                          rcases hx2 with h3 | h3 | h3
                          · exact Or.inl h3
                          · exact absurd h3 hxc
                          · exact Or.inr (Or.inr h3)
                        · exact Or.inr (Or.inl rfl)
                      · rintro (hx | rfl | hx)
                        · have hxv : x ∈ valuesOf st.map := by
                            rw [hvals]
                            exact List.mem_append.2 (Or.inl hx)
                          refine Or.inl ⟨fun hxc => ?_, (hUV x).2 hxv⟩
                          subst hxc
                          exact hcv1 hx
                        · exact Or.inr rfl
                        · have hxv : x ∈ valuesOf st.map := by
                            rw [hvals]
                            exact List.mem_append.2 (Or.inr (List.mem_cons_of_mem _ hx))
                          refine Or.inl ⟨fun hxc => ?_, (hUV x).2 hxv⟩
                          subst hxc
                          exact hcv2 hx
  | jnum => exact ⟨hK, hV, hU, hUV⟩
  | jbool b => exact ⟨hK, hV, hU, hUV⟩
  | jnull => exact ⟨hK, hV, hU, hUV⟩
  | jarr => exact ⟨hK, hV, hU, hUV⟩
  | jobj fields => exact ⟨hK, hV, hU, hUV⟩

theorem mergeFold_inv {d : EmojiDict} {cfg : List String} :
    ∀ (entries : List (String × JsVal)) (st : MergeState), MergerInv st →
      MergerInv (mergeRun d cfg st entries) := by
  intro entries
  induction entries with
  | nil => exact fun st h => h
  | cons en rest ih =>
    intro st h
    unfold mergeRun at ih ⊢
    rw [List.foldl_cons]
    exact ih _ (mergeStep_inv h)

/-- C4 (amended): throughout the allocator's generation loop the used set
always equals (as a set) the values of the assignment map; throughout the
AI merge the same holds provided the starting map has duplicate-free keys
and pairwise distinct values.  When two names share an emoji the merger
can drop a still-assigned emoji from the used set (see the
counterexample). -/
theorem used_set_matches_assignment_values (d : EmojiDict) :
    (∀ (pins : List (String × String)) (names : List String) (k : Nat),
      UsedMatchesValues
        ((names.take k).foldl (allocStep d) (allocInit pins names)).used
        ((names.take k).foldl (allocStep d) (allocInit pins names)).map) ∧
      (∀ (cfg : List String) (m : List (String × String))
          (entries : List (String × JsVal)) (k : Nat),
        (keysOf m).Nodup → (valuesOf m).Nodup →
        UsedMatchesValues
          (mergeRun d cfg (initMergeState m) (entries.take k)).used
          (mergeRun d cfg (initMergeState m) (entries.take k)).map) := by
  constructor
  · intro pins names k
    exact allocFold_usedMatches _ _ allocInit_usedMatches
  · intro cfg m entries k hk hv
    exact (mergeFold_inv _ _ (initMergeState_inv hk hv)).2.2.2

/-- Witness for C4 at a concrete input: a one-entry merge over a
duplicate-free map keeps the used set in sync. -/
theorem used_set_matches_assignment_values_witness :
    "🧠" ∈ (mergeRun trivialDict ["alpha"] (initMergeState [("alpha", "🔴")])
        ([("alpha", JsVal.jstr "🧠")].take 1)).used ↔
      "🧠" ∈ valuesOf (mergeRun trivialDict ["alpha"]
        (initMergeState [("alpha", "🔴")])
        ([("alpha", JsVal.jstr "🧠")].take 1)).map :=
  (used_set_matches_assignment_values trivialDict).2 ["alpha"] [("alpha", "🔴")]
    [("alpha", JsVal.jstr "🧠")] 1 (by decide) (by decide) "🧠"

/-- C4 counterexample: when two names hold the same emoji (obtained here
from duplicate pins), one accepted model suggestion removes an emoji from
the used set that is still assigned to the other name, so the used set no
longer equals the map's value set, contradicting the claim as stated. -/
theorem used_set_matches_values_counterexample :
    "🔴" ∈ valuesOf (mergeRun trivialDict ["a", "b"]
        (initMergeState (allocate trivialDict [("a", "🔴"), ("b", "🔴")] ["a", "b"]).map)
        [("a", JsVal.jstr "🧠")]).map ∧
      "🔴" ∉ (mergeRun trivialDict ["a", "b"]
        (initMergeState (allocate trivialDict [("a", "🔴"), ("b", "🔴")] ["a", "b"]).map)
        [("a", JsVal.jstr "🧠")]).used := by
  refine ⟨by decide, by decide⟩

/-!
Lookup behaviour of `mapSet` and the individual merger branches.
-/

theorem alookup_eq_some_mem {m : List (String × String)} {k cur : String}
    (h : alookup m k = some cur) : (k, cur) ∈ m := by
  unfold alookup at h
  cases hf : m.find? (fun p => p.1 == k) with
  | none => rw [hf] at h; cases h
  | some p =>
    rw [hf] at h
    have h1 : p.1 = k := by simpa using List.find?_some hf
    have h2 : p.2 = cur := by simpa using h
    have h3 := List.mem_of_find?_eq_some hf
    have : p = (k, cur) := by
      obtain ⟨a, b⟩ := p
      simp only [Prod.mk.injEq]
      exact ⟨h1, h2⟩
    rw [← this]
    exact h3

theorem alookup_eq_some_value_mem {m : List (String × String)} {k cur : String}
    (h : alookup m k = some cur) : cur ∈ valuesOf m :=
  List.mem_map.2 ⟨(k, cur), alookup_eq_some_mem h, rfl⟩

theorem alookup_map_replace_self {m : List (String × String)} {k v : String}
    (hmem : k ∈ keysOf m) :
    alookup (m.map (fun p => if p.1 == k then (k, v) else p)) k = some v := by
  induction m with
  | nil => simp [keysOf] at hmem
  | cons p m ih =>
    rw [List.map_cons]
    unfold alookup
    rw [List.find?_cons]
    by_cases hb : (p.1 == k) = true
    · rw [if_pos hb]
      simp
    · rw [if_neg hb]
      have hb2 : ((p.1 : String) == k) = false := Bool.of_not_eq_true hb
      rw [hb2]
      have hmem2 : k ∈ keysOf m := by
        unfold keysOf at hmem
        rw [List.map_cons, List.mem_cons] at hmem
        rcases hmem with hmem | hmem
        · exact absurd (by simp [hmem]) hb
        · exact hmem
      exact ih hmem2

theorem alookup_map_replace_other {m : List (String × String)} {k v k2 : String}
    (hne : k2 ≠ k) :
    alookup (m.map (fun p => if p.1 == k then (k, v) else p)) k2 = alookup m k2 := by
  induction m with
  | nil => rfl
  | cons p m ih =>
    rw [List.map_cons]
    unfold alookup
    rw [List.find?_cons, List.find?_cons]
    by_cases hb : (p.1 == k) = true
    · rw [if_pos hb]
      have h1 : p.1 = k := by simpa using hb
      have hk2 : ((k : String) == k2) = false := by
        simp only [beq_eq_false_iff_ne, ne_eq]
        exact fun hc => hne hc.symm
      have hp2 : ((p.1 : String) == k2) = false := by
        rw [h1]
        exact hk2
      simp only [hk2, hp2]
      exact ih
    · rw [if_neg hb]
      cases hp2 : ((p.1 : String) == k2) with
      | true => simp [hp2]
      | false => simp only [hp2]; exact ih

theorem alookup_append_single_self {m : List (String × String)} {k v : String}
    (h : k ∉ keysOf m) : alookup (m ++ [(k, v)]) k = some v := by
  induction m with
  | nil => simp [alookup]
  | cons p m ih =>
    rw [List.cons_append]
    unfold alookup
    rw [List.find?_cons]
    have hb : ((p.1 : String) == k) = false := by
      simp only [beq_eq_false_iff_ne, ne_eq]
      intro hc
      apply h
      unfold keysOf
      rw [List.map_cons, List.mem_cons]
      exact Or.inl hc.symm
    rw [hb]
    apply ih
    intro hm
    apply h
    unfold keysOf at hm ⊢
    rw [List.map_cons, List.mem_cons]
    exact Or.inr hm

theorem alookup_mapSet_self {m : List (String × String)} {k v : String} :
    alookup (mapSet m k v) k = some v := by
  unfold mapSet
  split
  · rename_i hc
    exact alookup_map_replace_self (string_contains_iff.1 hc)
  · rename_i hc
    exact alookup_append_single_self fun hm => hc (string_contains_iff.2 hm)

theorem alookup_mapSet_other {m : List (String × String)} {k v k2 : String}
    (hne : k2 ≠ k) : alookup (mapSet m k v) k2 = alookup m k2 := by
  unfold mapSet
  split
  · exact alookup_map_replace_other hne
  · unfold alookup
    rw [List.find?_append]
    have : List.find? (fun p => p.1 == k2) [(k, v)] = none := by
      simp only [List.find?_cons, List.find?_nil]
      have hb : ((k : String) == k2) = false := by
        simp only [beq_eq_false_iff_ne, ne_eq]
        exact fun hc => hne hc.symm
      rw [hb]
    rw [this]
    cases m.find? (fun p => p.1 == k2) <;> rfl

/-- The accepting branch of the merger: all guards pass, the map entry is
replaced and the used set is updated by removing the old value and adding
the new one. -/
theorem mergeStep_accept {d : EmojiDict} {lk : List (String × String)}
    {st : MergeState} {k v nm ns cur : String}
    (hlk : lookupLast lk (toLowerStr k) = some nm) (hnm : nm ≠ "")
    (hns : normalizeEmojiCandidate d v = some ns)
    (hne : ns ≠ "") (hres : RESERVED_EMOJIS.contains ns = false)
    (hcur : alookup st.map nm = some cur) (hc : cur ≠ "") (hcne : cur ≠ ns)
    (hused : st.used.contains ns = false) :
    mergeStep d lk st (k, JsVal.jstr v) =
      { map := mapSet st.map nm ns, used := setInsert (st.used.erase cur) ns } := by
  unfold mergeStep
  simp only [hlk, hns, hcur]
  have hcond : (decide (ns = "") || RESERVED_EMOJIS.contains ns) = false := by
    rw [decide_eq_false hne, hres]
    rfl
  rw [if_neg hnm, if_neg (fun hcc => Bool.noConfusion (hcond ▸ hcc)), if_neg hc,
    if_neg hcne, if_neg (fun hcc => Bool.noConfusion (hused ▸ hcc))]

/-- A merger entry that is rejected because the suggested emoji is already
in the used set leaves the state untouched. -/
theorem mergeStep_skip_used {d : EmojiDict} {lk : List (String × String)}
    {st : MergeState} {k v nm ns : String}
    (hlk : lookupLast lk (toLowerStr k) = some nm)
    (hns : normalizeEmojiCandidate d v = some ns)
    (hused : st.used.contains ns = true) :
    mergeStep d lk st (k, JsVal.jstr v) = st := by
  unfold mergeStep
  simp only [hlk, hns]
  by_cases hnm : nm = ""
  · rw [if_pos hnm]
  · rw [if_neg hnm]
    by_cases hres : (decide (ns = "") || RESERVED_EMOJIS.contains ns) = true
    · rw [if_pos hres]
    · rw [if_neg hres]
      cases hcur : alookup st.map nm with
      | none => rfl
      | some cur =>
        simp only
        by_cases hc : cur = ""
        · rw [if_pos hc]
        · rw [if_neg hc]
          by_cases hcne : cur = ns
          · rw [if_pos hcne]
          · rw [if_neg hcne, if_pos hused]

/-- C6: a model suggestion that normalizes to exactly the matched name's
current assigned emoji is a complete no-op: the merger returns the state
unchanged, with no removal and re-insertion churn on the used set. -/
theorem merger_noop_on_equal_suggestion (d : EmojiDict) (lk : List (String × String))
    (st : MergeState) (k v nm ns : String)
    (hlk : lookupLast lk (toLowerStr k) = some nm)
    (hns : normalizeEmojiCandidate d v = some ns)
    (hcur : alookup st.map nm = some ns) :
    mergeStep d lk st (k, JsVal.jstr v) = st := by
  unfold mergeStep
  simp only [hlk, hns, hcur]
  by_cases hnm : nm = ""
  · rw [if_pos hnm]
  · rw [if_neg hnm]
    by_cases hres : (decide (ns = "") || RESERVED_EMOJIS.contains ns) = true
    · rw [if_pos hres]
    · rw [if_neg hres]
      by_cases hc : ns = ""
      · rw [if_pos hc]
      · rw [if_neg hc]
        simp

/-- Witness for C6 at a concrete input: suggesting the emoji a name
already holds changes nothing. -/
theorem merger_noop_on_equal_suggestion_witness :
    mergeStep trivialDict (buildNameLookup ["alpha"])
        (initMergeState [("alpha", "🧠")]) ("alpha", JsVal.jstr "🧠") =
      initMergeState [("alpha", "🧠")] :=
  merger_noop_on_equal_suggestion trivialDict (buildNameLookup ["alpha"])
    (initMergeState [("alpha", "🧠")]) "alpha" "🧠" "alpha" "🧠"
    (by decide) (by decide) (by decide)

/-- C5 (amended): when the model maps two distinct candidate names to the
same normalized emoji, which is neither reserved nor already assigned, and
the first-iterated matched name is non-empty (the merger skips a falsy
matched name), the first-iterated entry adopts it and the second keeps
its prior local suggestion. -/
theorem first_applied_wins (d : EmojiDict) (cfg : List String)
    (m : List (String × String)) (k1 k2 v1 v2 n1 n2 c1 c2 e : String)
    (hlk1 : lookupLast (buildNameLookup cfg) (toLowerStr k1) = some n1)
    (hn1e : n1 ≠ "")
    (hlk2 : lookupLast (buildNameLookup cfg) (toLowerStr k2) = some n2)
    (hnn : n2 ≠ n1)
    (hns1 : normalizeEmojiCandidate d v1 = some e)
    (hns2 : normalizeEmojiCandidate d v2 = some e)
    (hee : e ≠ "") (hres : RESERVED_EMOJIS.contains e = false)
    (hc1 : alookup m n1 = some c1) (hc1e : c1 ≠ "")
    (hc2 : alookup m n2 = some c2)
    (hnin : e ∉ valuesOf m) :
    alookup (applyLlmSuggestions d cfg m
        [(k1, JsVal.jstr v1), (k2, JsVal.jstr v2)]) n1 = some e ∧
      alookup (applyLlmSuggestions d cfg m
        [(k1, JsVal.jstr v1), (k2, JsVal.jstr v2)]) n2 = some c2 ∧
      c2 ≠ e := by
  have hc1ne : c1 ≠ e := fun hceq => hnin (hceq ▸ alookup_eq_some_value_mem hc1)
  have hc2ne : c2 ≠ e := fun hceq => hnin (hceq ▸ alookup_eq_some_value_mem hc2)
  have hused0 : (setOfList (valuesOf m)).contains e = false :=
    contains_eq_false_iff.2 fun hm => hnin (setOfList_mem.1 hm)
  have hstep1 : mergeStep d (buildNameLookup cfg) (initMergeState m)
      (k1, JsVal.jstr v1) =
      { map := mapSet m n1 e, used := setInsert ((setOfList (valuesOf m)).erase c1) e } :=
    mergeStep_accept hlk1 hn1e hns1 hee hres hc1 hc1e hc1ne hused0
  have hstep2 : mergeStep d (buildNameLookup cfg)
      { map := mapSet m n1 e
        used := setInsert ((setOfList (valuesOf m)).erase c1) e }
      (k2, JsVal.jstr v2) =
      { map := mapSet m n1 e
        used := setInsert ((setOfList (valuesOf m)).erase c1) e } := by
    apply mergeStep_skip_used hlk2 hns2
    exact string_contains_iff.2 (setInsert_mem.2 (Or.inr rfl))
  unfold applyLlmSuggestions mergeRun
  rw [List.foldl_cons, hstep1, List.foldl_cons, hstep2, List.foldl_nil]
  refine ⟨alookup_mapSet_self, ?_, hc2ne⟩
  simp only
  rw [alookup_mapSet_other hnn]
  exact hc2

/-- Witness for C5 at a concrete input: the model suggests 🧠 for both
names; the first keeps it, the second retains its local 🟠. -/
theorem first_applied_wins_witness :
    alookup (applyLlmSuggestions trivialDict ["alpha", "beta"]
        [("alpha", "🔴"), ("beta", "🟠")]
        [("alpha", JsVal.jstr "🧠"), ("beta", JsVal.jstr "🧠")]) "alpha" = some "🧠" ∧
      alookup (applyLlmSuggestions trivialDict ["alpha", "beta"]
        [("alpha", "🔴"), ("beta", "🟠")]
        [("alpha", JsVal.jstr "🧠"), ("beta", JsVal.jstr "🧠")]) "beta" = some "🟠" ∧
      "🟠" ≠ "🧠" :=
  first_applied_wins trivialDict ["alpha", "beta"] [("alpha", "🔴"), ("beta", "🟠")]
    "alpha" "beta" "🧠" "🧠" "alpha" "beta" "🔴" "🟠" "🧠"
    (by decide) (by decide) (by decide) (by decide) (by decide) (by decide)
    (by decide) (by decide) (by decide) (by decide) (by decide) (by decide)

/-- C5 counterexample: the candidate name list contains the empty string;
the model suggests the same fresh emoji for the empty-named config first
and for "beta" second.  The merger's falsy-name guard skips the
first-iterated entry, so the second-iterated name adopts the emoji and
the first keeps its prior value, contradicting the claim as stated. -/
theorem first_applied_wins_counterexample :
    alookup (applyLlmSuggestions trivialDict ["", "beta"]
        [("", "🔴"), ("beta", "🟠")]
        [("", JsVal.jstr "🧠"), ("beta", JsVal.jstr "🧠")]) "" = some "🔴" ∧
      alookup (applyLlmSuggestions trivialDict ["", "beta"]
        [("", "🔴"), ("beta", "🟠")]
        [("", JsVal.jstr "🧠"), ("beta", JsVal.jstr "🧠")]) "beta" = some "🧠" := by
  refine ⟨by decide, by decide⟩

/-!
Provider resolution.
-/

theorem getOptionalEnvVar_eq_none_iff (env : String → Option String) (n : String) :
    getOptionalEnvVar env n = none ↔
      env n = none ∨ env n = some "" ∨ env n = some "undefined" := by
  cases henv : env n with
  | none => simp [getOptionalEnvVar, henv]
  | some v =>
    have hred : getOptionalEnvVar env n =
        if (decide (v = "") || decide (v = "undefined")) = true then none else some v := by
      unfold getOptionalEnvVar
      rw [henv]
    rw [hred]
    by_cases h1 : v = ""
    · subst h1
      simp
    · by_cases h2 : v = "undefined"
      · subst h2
        simp
      · have hcond : (decide (v = "") || decide (v = "undefined")) = false := by
          rw [decide_eq_false h1, decide_eq_false h2]
          rfl
        rw [if_neg (fun hcc => Bool.noConfusion (hcond ▸ hcc))]
        simp [h1, h2]

theorem getOptionalEnvVar_eq_some_iff (env : String → Option String) (n k : String) :
    getOptionalEnvVar env n = some k ↔
      env n = some k ∧ k ≠ "" ∧ k ≠ "undefined" := by
  cases henv : env n with
  | none => simp [getOptionalEnvVar, henv]
  | some v =>
    have hred : getOptionalEnvVar env n =
        if (decide (v = "") || decide (v = "undefined")) = true then none else some v := by
      unfold getOptionalEnvVar
      rw [henv]
    rw [hred]
    by_cases h1 : v = ""
    · subst h1
      simp only [if_pos (by rfl : (decide ("" = "") || decide ("" = "undefined")) = true)]
      constructor
      · intro hcc
        cases hcc
      · rintro ⟨hv, hk, -⟩
        have : "" = k := by simpa using hv
        exact absurd this.symm hk
    · by_cases h2 : v = "undefined"
      · subst h2
        have htrue : (decide ("undefined" = "") || decide ("undefined" = "undefined")) = true := by
          rfl
        rw [if_pos htrue]
        constructor
        · intro hcc
          cases hcc
        · rintro ⟨hv, -, hk⟩
          have : "undefined" = k := by simpa using hv
          exact absurd this.symm hk
      · have hcond : (decide (v = "") || decide (v = "undefined")) = false := by
          rw [decide_eq_false h1, decide_eq_false h2]
          rfl
        rw [if_neg (fun hcc => Bool.noConfusion (hcond ▸ hcc))]
        constructor
        · intro hv
          have hveq : v = k := by simpa using hv
          subst hveq
          exact ⟨rfl, h1, h2⟩
        · rintro ⟨hv, -, -⟩
          simpa using hv

theorem mem_AI_PROVIDERS (p : AiProvider) : p ∈ AI_PROVIDERS := by
  cases p <;> simp [AI_PROVIDERS]

/-- C7: with no explicit provider, resolution scans all providers for a
present (set, non-empty, not the "undefined" sentinel) API-key variable:
zero candidates is a configuration error listing every recognized
variable, exactly one selects that provider with the explicit model or its
default, and two or more is a configuration error listing the conflicting
variables. -/
theorem provider_auto_resolution (env : String → Option String)
    (aiModel : Option String) :
    (providersWithApiKey env = [] →
      resolveAiProviderConfig env none aiModel =
        .error (.noApiKey SUPPORTED_API_KEY_ENV_VARS)) ∧
      (∀ p k, providersWithApiKey env = [(p, k)] →
        resolveAiProviderConfig env none aiModel =
          .ok { provider := p, apiKey := k
                model := aiModel.getD (PROVIDER_METADATA p).defaultModel
                endpoint := (PROVIDER_METADATA p).endpoint
                protocol := (PROVIDER_METADATA p).protocol }) ∧
      (2 ≤ (providersWithApiKey env).length →
        resolveAiProviderConfig env none aiModel =
          .error (.multipleApiKeys ((providersWithApiKey env).map
            (fun c => (PROVIDER_METADATA c.1).apiKeyEnvVar)))) ∧
      (∀ p, (∃ k, (p, k) ∈ providersWithApiKey env) ↔
        (∃ s, env (PROVIDER_METADATA p).apiKeyEnvVar = some s ∧
          s ≠ "" ∧ s ≠ "undefined")) := by
  refine ⟨?_, ?_, ?_, ?_⟩
  · intro h
    simp only [resolveAiProviderConfig]
    rw [h]
  · intro p k h
    simp only [resolveAiProviderConfig]
    rw [h]
  · intro h
    simp only [resolveAiProviderConfig]
    cases hp : providersWithApiKey env with
    | nil => rw [hp] at h; simp at h
    | cons a t =>
      cases t with
      | nil => rw [hp] at h; simp at h
      | cons b t2 => rfl
  · intro p
    constructor
    · rintro ⟨k, hk⟩
      obtain ⟨q, -, hfq⟩ := List.mem_filterMap.1 hk
      obtain ⟨v, hv1, hv2⟩ := Option.map_eq_some'.1 hfq
      obtain ⟨hqp, hvk⟩ := Prod.ext_iff.1 hv2
      subst hqp
      subst hvk
      exact ⟨v, (getOptionalEnvVar_eq_some_iff env _ v).1 hv1⟩
    · rintro ⟨s, hs, h1, h2⟩
      have hget : getOptionalEnvVar env (PROVIDER_METADATA p).apiKeyEnvVar = some s :=
        (getOptionalEnvVar_eq_some_iff env _ s).2 ⟨hs, h1, h2⟩
      refine ⟨s, List.mem_filterMap.2 ⟨p, mem_AI_PROVIDERS p, ?_⟩⟩
      rw [hget]
      rfl

/-- An environment with two provider keys set, for the C7 witness. -/
def envTwoKeys : String → Option String :=
  fun n =>
    if n = "GROQ_API_KEY" then some "k1"
    else if n = "OPENAI_API_KEY" then some "k2"
    else none

/-- Witness for C7 at a concrete input: two keys set and no explicit
provider yields the configuration error naming both variables. -/
theorem provider_auto_resolution_witness :
    resolveAiProviderConfig envTwoKeys none none =
      .error (.multipleApiKeys ["GROQ_API_KEY", "OPENAI_API_KEY"]) := by
  have h := (provider_auto_resolution envTwoKeys none).2.2.1 (by decide)
  rw [h]
  rfl

/-- C8: a provider API-key environment value that is unset, empty, or the
literal string "undefined" is treated as absent: the explicit-provider
path then fails naming the required variable, and the auto-scan path
excludes the provider from the candidate set. -/
theorem env_undefined_sentinel (env : String → Option String) (p : AiProvider)
    (aiModel : Option String) :
    (∀ n, getOptionalEnvVar env n = none ↔
      env n = none ∨ env n = some "" ∨ env n = some "undefined") ∧
      (getOptionalEnvVar env (PROVIDER_METADATA p).apiKeyEnvVar = none →
        resolveAiProviderConfig env (some p) aiModel =
          .error (.missingExplicitKey p (PROVIDER_METADATA p).apiKeyEnvVar)) ∧
      (getOptionalEnvVar env (PROVIDER_METADATA p).apiKeyEnvVar = none →
        ∀ k, (p, k) ∉ providersWithApiKey env) := by
  refine ⟨getOptionalEnvVar_eq_none_iff env, ?_, ?_⟩
  · intro h
    simp only [resolveAiProviderConfig]
    rw [h]
  · intro h k hk
    obtain ⟨q, -, hfq⟩ := List.mem_filterMap.1 hk
    obtain ⟨v, hv1, hv2⟩ := Option.map_eq_some'.1 hfq
    obtain ⟨hqp, -⟩ := Prod.ext_iff.1 hv2
    subst hqp
    rw [h] at hv1
    cases hv1

/-- An environment injecting the literal string "undefined", for the C8
witness. -/
def envUndefinedSentinel : String → Option String :=
  fun n => if n = "OPENAI_API_KEY" then some "undefined" else none

/-- Witness for C8 at a concrete input: an explicitly requested provider
whose key is the "undefined" sentinel fails naming the variable, and the
provider is excluded from the scan. -/
theorem env_undefined_sentinel_witness :
    resolveAiProviderConfig envUndefinedSentinel (some AiProvider.openai) none =
      .error (.missingExplicitKey AiProvider.openai "OPENAI_API_KEY") ∧
      ("undefined" ∈ ([] : List String) ∨
        (AiProvider.openai, "undefined") ∉ providersWithApiKey envUndefinedSentinel) := by
  have h := env_undefined_sentinel envUndefinedSentinel AiProvider.openai none
  exact ⟨h.2.1 (by decide), Or.inr (h.2.2 (by decide) "undefined")⟩

/-!
The response parser.
-/

theorem findIdx?_first_of_decomp {pre rest : List Char} {c : Char}
    (hpre : ∀ x ∈ pre, x ≠ c) (hhead : rest.head? = some c) :
    (pre ++ rest).findIdx? (fun x => x == c) = some pre.length := by
  rw [List.findIdx?_append]
  have h1 : pre.findIdx? (fun x => x == c) = none := by
    rw [List.findIdx?_eq_none_iff]
    intro x hx
    simp [hpre x hx]
  rw [h1]
  cases rest with
  | nil => cases hhead
  | cons c0 t =>
    have hc : c0 = c := by simpa using hhead
    subst hc
    simp

theorem lastIdxOf_of_decomp {pre obj post : List Char} {c : Char}
    (hpost : ∀ x ∈ post, x ≠ c) (hlast : obj.getLast? = some c) :
    lastIdxOf c (pre ++ (obj ++ post)) =
      some (pre.length + obj.length - 1) := by
  unfold lastIdxOf
  have hrev : (pre ++ (obj ++ post)).reverse =
      post.reverse ++ (obj.reverse ++ pre.reverse) := by
    rw [List.reverse_append, List.reverse_append, List.append_assoc]
  have hhead : obj.reverse.head? = some c := by
    rw [List.head?_reverse]
    exact hlast
  have hprev : ∀ x ∈ post.reverse, x ≠ c := fun x hx =>
    hpost x (List.mem_reverse.1 hx)
  have hfi : (post.reverse ++ (obj.reverse ++ pre.reverse)).findIdx?
      (fun x => x == c) = some post.reverse.length := by
    apply findIdx?_first_of_decomp hprev
    cases hor : obj.reverse with
    | nil => rw [hor] at hhead; cases hhead
    | cons c0 t =>
      rw [hor] at hhead
      simp only [List.cons_append, List.head?_cons]
      simpa using hhead
  rw [hrev, hfi]
  have hobj1 : 1 ≤ obj.length := by
    cases obj with
    | nil => cases hlast
    | cons c0 t => simp [List.length_cons]
  show some ((pre ++ (obj ++ post)).length - 1 - post.reverse.length) =
    some (pre.length + obj.length - 1)
  congr 1
  simp only [List.length_append, List.length_reverse]
  omega

theorem extractBraces_of_decomp {s : String} {pre obj post : List Char}
    (hdata : s.data = pre ++ obj ++ post)
    (hpre : ∀ c ∈ pre, c ≠ '{')
    (hpost : ∀ c ∈ post, c ≠ '}')
    (hhead : obj.head? = some '{')
    (hlast : obj.getLast? = some '}') :
    extractBraces s = String.mk obj := by
  have hO2 : 2 ≤ obj.length := by
    cases obj with
    | nil => cases hhead
    | cons c t =>
      cases t with
      | nil =>
        have h1 : c = '{' := by simpa using hhead
        have h2 : c = '}' := by
          have : ([c] : List Char).getLast? = some c := rfl
          rw [this] at hlast
          simpa using hlast
        rw [h1] at h2
        cases h2
      | cons c2 t2 =>
        simp only [List.length_cons]
        omega
  have hdata2 : s.data = pre ++ (obj ++ post) := by
    rw [hdata, List.append_assoc]
  have hhead2 : (obj ++ post).head? = some '{' := by
    cases obj with
    | nil => cases hhead
    | cons c t =>
      simp only [List.cons_append, List.head?_cons]
      simpa using hhead
  have hfi : (pre ++ (obj ++ post)).findIdx? (fun x => x == '{') = some pre.length :=
    findIdx?_first_of_decomp hpre hhead2
  have hli : lastIdxOf '}' (pre ++ (obj ++ post)) =
      some (pre.length + obj.length - 1) :=
    lastIdxOf_of_decomp hpost hlast
  unfold extractBraces
  rw [hdata2]
  simp only [hfi, hli]
  have hij : pre.length < pre.length + obj.length - 1 := by omega
  rw [if_pos hij]
  have harith : pre.length + obj.length - 1 + 1 - pre.length = obj.length := by omega
  rw [harith, List.drop_left' rfl, List.take_left' rfl]

/-- C10: the response parser accepts a JSON object wrapped in markdown
fences and/or surrounded by brace-free extra text: it extracts exactly the
substring from the first opening brace to the last closing brace of the
fence-stripped text and returns its parse when that parse is an object;
and it fails exactly when the trimmed content is empty or the extracted
text does not parse to an object. -/
theorem parseLlmResponseObject_spec (jparse : String → Option JsVal)
    (content : String) :
    (∀ (pre obj post : List Char) (fields : List (String × JsVal)),
      (stripFences (trimStr content)).data = pre ++ obj ++ post →
      (∀ c ∈ pre, c ≠ '{') →
      (∀ c ∈ post, c ≠ '}') →
      obj.head? = some '{' →
      obj.getLast? = some '}' →
      jparse (String.mk obj) = some (JsVal.jobj fields) →
      parseLlmResponseObject jparse content = some fields) ∧
      (parseLlmResponseObject jparse content = none ↔
        trimStr content = "" ∨
          ∀ fields, jparse (extractBraces (stripFences (trimStr content))) ≠
            some (JsVal.jobj fields)) := by
  constructor
  · intro pre obj post fields hdata hpre hpost hhead hlast hjp
    have hne : trimStr content ≠ "" := by
      intro hemp
      rw [hemp] at hdata
      have : ([] : List Char) = pre ++ obj ++ post := hdata
      obtain ⟨h1, h2⟩ := List.append_eq_nil.1 this.symm
      obtain ⟨-, h3⟩ := List.append_eq_nil.1 h1
      rw [h3] at hhead
      cases hhead
    have heb : extractBraces (stripFences (trimStr content)) = String.mk obj :=
      extractBraces_of_decomp hdata hpre hpost hhead hlast
    simp only [parseLlmResponseObject]
    rw [if_neg hne, heb, hjp]
  · by_cases hemp : trimStr content = ""
    · simp only [parseLlmResponseObject]
      rw [if_pos hemp]
      simp [hemp]
    · simp only [parseLlmResponseObject]
      rw [if_neg hemp]
      cases hjp : jparse (extractBraces (stripFences (trimStr content))) with
      | none => simp [hemp]
      | some v =>
        cases v with
        | jobj fields =>
          simp only
          constructor
          · intro hcc
            cases hcc
          · rintro (hcc | hcc)
            · exact absurd hcc hemp
            · exact absurd rfl (hcc fields)
        | jstr s => simp [hemp]
        | jnum => simp [hemp]
        | jbool b => simp [hemp]
        | jnull => simp [hemp]
        | jarr => simp [hemp]

/-- A concrete stand-in for `JSON.parse` recognizing one object text, for
the C10 witness. -/
def jparseSample : String → Option JsVal :=
  fun s =>
    if s = "\x7b\"a\": 1\x7d" then some (JsVal.jobj [("a", JsVal.jnum)]) else none

/-- Witness for C10 at a concrete input: a JSON object surrounded by prose
is extracted and parsed. -/
theorem parseLlmResponseObject_spec_witness :
    parseLlmResponseObject jparseSample "Note: \x7b\"a\": 1\x7d thanks" =
      some [("a", JsVal.jnum)] :=
  (parseLlmResponseObject_spec jparseSample "Note: \x7b\"a\": 1\x7d thanks").1
    "Note: ".data "\x7b\"a\": 1\x7d".data " thanks".data [("a", JsVal.jnum)]
    (by decide) (by decide) (by decide) (by decide) (by decide) rfl

end EslintDocGen
